import Mathlib

/-!
Verification of the cost-analysis backend (part-number extraction, month
formatting, material mapping, price/trend/pie derivation, market-index
pipeline and the chat orchestration) against its natural-language
specification.  All definitions are shallow embeddings of the Python
source in src/: numeric cells are modelled with an explicit value type
covering null, NaN, signed infinity, finite rationals and strings
(rational numbers stand in for IEEE floats; the specification's floating
tolerances are exact identities in this model), fallible code returns
Option or Except, and dictionary rows are association lists in field
order.
-/

/-! ## Basic string machinery (Python `in`, `lower`, `startswith`) -/

/-- Boolean test that the first list is an initial segment of the second
(used to implement the Python substring operator). -/
def leadEq : List Char → List Char → Bool
  | [], _ => true
  | _ :: _, [] => false
  | a :: as, b :: bs => a == b && leadEq as bs

/-- Python substring containment `needle in hay` on character lists. -/
def subOccurs : List Char → List Char → Bool
  | n, [] => leadEq n []
  | n, c :: t => leadEq n (c :: t) || subOccurs n t

/-- Python `s.lower()` for the ASCII texts this code deals with. -/
def lowerL (s : String) : List Char := s.toList.map Char.toLower

/-- Python `any(x in hay for x in keys)` over a keyword list. -/
def anyKey (hay : List Char) (keys : List String) : Bool :=
  keys.any (fun k => subOccurs k.toList hay)

/-! ## Material mapper (src/utils.py, map_material_to_index) -/

/-- Embedding of utils.map_material_to_index: case-insensitive substring
matching against ordered keyword tables, first match wins; the for_c3
variant folds the PPS keywords into the PP branch. -/
def map_material_to_index (material : String) (for_c3 : Bool) : Option String :=
  if material = "" then none
  else
    let l := lowerL material
    if for_c3 then
      if anyKey l ["pa6", "polyamide 6", "nylon 6"] then some "PA6"
      else if anyKey l ["pa66", "polyamide 66", "nylon 66"] then some "PA66"
      else if anyKey l ["pp", "polypropylene", "pps", "polyphenylene sulfide"] then some "PP"
      else none
    else
      if anyKey l ["pa6", "polyamide 6", "nylon 6"] then some "PA6"
      else if anyKey l ["pa66", "polyamide 66", "nylon 66"] then some "PA66"
      else if anyKey l ["pp", "polypropylene"] then some "PP"
      else if anyKey l ["pps", "polyphenylene sulfide"] then some "PPS"
      else if anyKey l ["ppa", "polyphthalamide"] then some "PPA"
      else none

/-! ## Part-number extractor (src/utils.py, extract_part_number)

The three regular expressions of the source are compiled here into
direct leftmost-match scanners.  The greedy character classes of the
patterns are forced (a letter run can only be followed by the literal
dash at its maximal extent, and a whitespace run only by a letter at
its maximal extent), so each pattern reduces to a deterministic scan. -/

/-- ASCII letter, the class the case-insensitive `[A-Z]` matches. -/
def isLet (c : Char) : Bool :=
  ('A' ≤ c && c ≤ 'Z') || ('a' ≤ c && c ≤ 'z')

/-- ASCII digit, the class matched by a digit escape in the patterns. -/
def isDig (c : Char) : Bool := '0' ≤ c && c ≤ '9'

/-- Python regex whitespace class over ASCII. -/
def isWs (c : Char) : Bool :=
  c == ' ' || c == '\t' || c == '\n' || c == '\r' || c == '\x0b' || c == '\x0c'

/-- Case-insensitive comparison of an input character with a lowercase
pattern character. -/
def lowEq (c d : Char) : Bool := c.toLower == d

/-- Longest boolean-predicate run at the head of a list (greedy class
repetition). -/
def takeW (p : Char → Bool) : List Char → List Char
  | [] => []
  | c :: t => if p c then c :: takeW p t else []

/-- Remainder after the longest head run. -/
def dropW (p : Char → Bool) : List Char → List Char
  | [] => []
  | c :: t => if p c then dropW p t else c :: t

/-- Attempt of the generic letters-dash-digits pattern anchored at the
head of the list; returns the whole match. -/
def tryLD (l : List Char) : Option (List Char) :=
  if takeW isLet l = [] then none
  else
    match dropW isLet l with
    | c :: r2 =>
        if c = '-' then
          if takeW isDig r2 = [] then none
          else some (takeW isLet l ++ '-' :: takeW isDig r2)
        else none
    | [] => none

/-- Leftmost match of the generic letters-dash-digits pattern. -/
def scanLD : List Char → Option (List Char)
  | [] => none
  | c :: t =>
      match tryLD (c :: t) with
      | some m => some m
      | none => scanLD t

/-- The pair of leading characters admitted by the case-insensitive
literal prefix of the first pattern. -/
def paPair (c1 c2 : Char) : Bool :=
  (c1 == 'P' || c1 == 'p') && (c2 == 'A' || c2 == 'a')

/-- Attempt of the first pattern (literal PA, dash, digits) anchored at
the head of the list. -/
def tryPA : List Char → Option (List Char)
  | c1 :: c2 :: c3 :: r =>
      if paPair c1 c2 && (c3 == '-') then
        if takeW isDig r = [] then none
        else some (c1 :: c2 :: '-' :: takeW isDig r)
      else none
  | _ => none

/-- Leftmost match of the first pattern. -/
def scanPA : List Char → Option (List Char)
  | [] => none
  | c :: t =>
      match tryPA (c :: t) with
      | some m => some m
      | none => scanPA t

/-- Attempt of the second pattern (the word part, whitespace, then the
captured letters-dash-digits group) anchored at the head; returns only
the captured group, as the source does. -/
def tryPart : List Char → Option (List Char)
  | cp :: ca :: cr :: ct :: rest =>
      if lowEq cp 'p' && lowEq ca 'a' && lowEq cr 'r' && lowEq ct 't' then
        if takeW isWs rest = [] then none
        else tryLD (dropW isWs rest)
      else none
  | _ => none

/-- Leftmost match of the second pattern. -/
def scanPart : List Char → Option (List Char)
  | [] => none
  | c :: t =>
      match tryPart (c :: t) with
      | some m => some m
      | none => scanPart t

/-- Embedding of utils.extract_part_number: the three patterns are tried
in priority order; the first two carry distinct group semantics exactly
as in the source (whole match for the first, captured group for the
second and third). -/
def extract_part_number (s : String) : Option String :=
  match scanPA s.toList with
  | some m => some (String.mk m)
  | none =>
      match scanPart s.toList with
      | some m => some (String.mk m)
      | none =>
          match scanLD s.toList with
          | some m => some (String.mk m)
          | none => none

/-- Every character of the list is an ASCII letter. -/
def AllLet (l : List Char) : Prop := ∀ c ∈ l, isLet c = true

/-- Every character of the list is an ASCII digit. -/
def AllDig (l : List Char) : Prop := ∀ c ∈ l, isDig c = true

/-- The list contains a substring matching letters-dash-digits: the
hypothesis of the extraction claim. -/
def HasLDsub (l : List Char) : Prop :=
  ∃ a ls ds b, l = a ++ ls ++ '-' :: ds ++ b ∧
    ls ≠ [] ∧ AllLet ls ∧ ds ≠ [] ∧ AllDig ds

/-- Shape of a full letters-dash-digits match. -/
def LDshape (m : List Char) : Prop :=
  ∃ ls ds, m = ls ++ '-' :: ds ∧ ls ≠ [] ∧ AllLet ls ∧ ds ≠ [] ∧ AllDig ds

/-- Occurrence of the first pattern somewhere in the list. -/
def HasPA (l : List Char) : Prop :=
  ∃ a c1 c2 d r, l = a ++ c1 :: c2 :: '-' :: d :: r ∧
    paPair c1 c2 = true ∧ isDig d = true

/-- Shape of a full match of the first pattern. -/
def PAshape (m : List Char) : Prop :=
  ∃ c1 c2 ds, m = c1 :: c2 :: '-' :: ds ∧
    paPair c1 c2 = true ∧ ds ≠ [] ∧ AllDig ds

/-! ## Tabular cell values

A cell of a fetched row is null, NaN, a signed infinity, a finite
number (a rational standing in for an IEEE double) or a string.  Rows
are association lists in field-declaration order, as a one-row pandas
DataFrame built from a JSON record behaves. -/

inductive PVal where
  | vnull
  | vnan
  | vinf (pos : Bool)
  | vnum (q : ℚ)
  | vstr (s : String)
deriving DecidableEq

/-- A fetched row: field names with cell values, in field order. -/
abbrev Row : Type := List (String × PVal)

/-- pandas pd.notna on a cell. -/
def pdNotNa : PVal → Bool
  | .vnull => false
  | .vnan => false
  | _ => true

/-- math.isinf on a cell that reaches the check. -/
def pyIsInf : PVal → Bool
  | .vinf _ => true
  | _ => false

/-- The Python comparison v > 0 on cells where it is evaluated after a
notna guard: NaN compares false, an infinity compares by its sign.  A
string comparison raises in Python; the callers relevant here reach it
only under a try/except that discards the field, which this false
models (the one caller without a try, the breakdown synthesis, is
verified under a no-string-cell hypothesis). -/
def pyGtZero : PVal → Bool
  | .vnum q => decide (0 < q)
  | .vinf pos => pos
  | _ => false

/-- The guard pd.notna(v) and v > 0 and not math.isinf(v) shared by the
price-series extraction, the pie builder and the breakdown synthesis. -/
def validPos (v : PVal) : Bool := pdNotNa v && pyGtZero v && !pyIsInf v

/-- float(v) applied to a cell that passed the validPos guard (only a
finite number can pass it). -/
def toQ : PVal → ℚ
  | .vnum q => q
  | _ => 0

/-- Python dict / single-row-frame field read: presence plus value. -/
def rowGet (r : Row) (k : String) : Option PVal :=
  (r.find? (fun f => f.1 == k)).map (fun f => f.2)

/-- Boolean: no cell of the row is a string (the regime in which the
guard above coincides with Python on every code path). -/
def rowNoStr (r : Row) : Bool :=
  r.all (fun f => match f.2 with | .vstr _ => false | _ => true)

/-- Python name.startswith(pre). -/
def strStarts (name pre : String) : Bool := leadEq pre.toList name.toList

/-- The source's price-column filter: startswith('price') and 'mkt' not
in the name. -/
def isPriceCol (name : String) : Bool :=
  strStarts name "price" && !(subOccurs "mkt".toList name.toList)

/-- Python col.replace('price', ''): removes every occurrence of the
five-character pattern, scanning left to right. -/
def removePrice : List Char → List Char
  | 'p' :: 'r' :: 'i' :: 'c' :: 'e' :: t => removePrice t
  | c :: t => c :: removePrice t
  | [] => []

/-- English month-abbreviation table of the price-series parser. -/
def monthTableEn : List (String × Nat) :=
  [("jan", 1), ("feb", 2), ("mar", 3), ("apr", 4), ("may", 5), ("jun", 6),
   ("jul", 7), ("aug", 8), ("sep", 9), ("oct", 10), ("nov", 11), ("dec", 12)]

/-- Lookup of a three-character month key in the English table. -/
def monthNumEn (m : List Char) : Option Nat :=
  (monthTableEn.find? (fun p => p.1.toList == m)).map (fun p => p.2)

/-- Python int(s) for the digit strings arising from field-name
suffixes (sign, surrounding whitespace and underscore separators of the
full Python grammar never occur there and are not modelled). -/
def parseNat (l : List Char) : Option Nat :=
  if l ≠ [] ∧ l.all isDig then
    some (l.foldl (fun acc c => acc * 10 + (c.toNat - '0'.toNat)) 0)
  else none

/-- One iteration of the price-series loop of
utils.create_price_trend_chart: length-at-least-7 guard on the suffix,
month by the English table, year by int() then the datetime year range,
then the validPos guard on the cell; any failure discards the field. -/
def parsePriceField (f : String × PVal) : Option (Nat × Nat × ℚ) :=
  let my := removePrice f.1.toList
  if 7 ≤ my.length then
    match monthNumEn (my.take 3) with
    | some mn =>
        match parseNat (my.drop 3) with
        | some y =>
            if 1 ≤ y ∧ y ≤ 9999 then
              if validPos f.2 then some (y, mn, toQ f.2) else none
            else none
        | none => none
    | none => none
  else none

/-- The derived price series: price columns in field-declaration order,
each parsed field contributing one (year, month, price) point. -/
def pricePoints (row : Row) : List (Nat × Nat × ℚ) :=
  (row.filter (fun f => isPriceCol f.1)).filterMap parsePriceField

/-- Chart descriptions as far as the claims observe them: the error
marker, the price line, the breakdown pie (labels, slice values,
percentages, title) and the market-trend line (month dates as
year-month pairs, values, title). -/
inductive ChartSpec where
  | err (msg : String)
  | priceLine (points : List (Nat × Nat × ℚ))
  | pie (labels : List String) (values : List ℚ) (percentages : List ℚ) (title : String)
  | trendLine (dates : List (Nat × Nat)) (values : List ℚ) (title : String)
deriving DecidableEq

/-- Embedding of utils.create_price_trend_chart: error marker when no
valid price survives, otherwise the series (titling and styling of the
figure are not observed by any claim). -/
def create_price_trend_chart (row : Row) : ChartSpec :=
  if pricePoints row = [] then .err "No valid price data found"
  else .priceLine (pricePoints row)

/-- The canonical seven cost components of the pie builder. -/
def cbsComponents : List String :=
  ["rawmaterial", "machine", "labor", "overhead", "energy", "packaginglogistics", "profit"]

/-- Slice label: the source replaces the packaging key and title-cases;
only the seven fixed components reach this. -/
def componentLabel : String → String
  | "rawmaterial" => "Rawmaterial"
  | "machine" => "Machine"
  | "labor" => "Labor"
  | "overhead" => "Overhead"
  | "energy" => "Energy"
  | "packaginglogistics" => "Packaging & Logistics"
  | "profit" => "Profit"
  | s => s

/-- The included components of a breakdown row: present, positive,
finite, in canonical component order. -/
def cbsIncluded (row : Row) : List (String × ℚ) :=
  cbsComponents.filterMap (fun comp =>
    match rowGet row comp with
    | some v => if validPos v then some (comp, toQ v) else none
    | none => none)

/-- Embedding of utils.create_cbs_pie_chart: slices from the included
components, percentages computed only when the accumulated total is
positive. -/
def create_cbs_pie_chart (row : Row) (part_number : String) (is_suggested : Bool) : ChartSpec :=
  ChartSpec.pie
    ((cbsIncluded row).map (fun f => componentLabel f.1))
    ((cbsIncluded row).map (fun f => f.2))
    (if 0 < ((cbsIncluded row).map (fun f => f.2)).sum then
      ((cbsIncluded row).map (fun f => f.2)).map
        (fun v => v / ((cbsIncluded row).map (fun f => f.2)).sum * 100)
     else [])
    (if is_suggested then "CBS-Suggested for " ++ part_number
     else "CBS " ++ part_number)

/-- Slice values of a pie chart. -/
def pieValues : ChartSpec → List ℚ
  | .pie _ v _ _ => v
  | _ => []

/-- Percentages of a pie chart. -/
def piePercentages : ChartSpec → List ℚ
  | .pie _ _ pc _ => pc
  | _ => []

/-- The valid prices collected by utils.suggest_cbs_structure from the
price columns. -/
def validPrices (row : Row) : List ℚ :=
  ((row.filter (fun f => isPriceCol f.1)).filter (fun f => validPos f.2)).map
    (fun f => toQ f.2)

/-- The average price of the synthesis: mean of the valid prices, or
the fixed constant 100 when none exists.  The source re-checks the mean
for NaN and infinity; over rationals that re-check never fires and is
omitted. -/
def avg_price (row : Row) : ℚ :=
  if validPrices row = [] then 100
  else (validPrices row).sum / ((validPrices row).length : ℚ)

/-- The fixed proportional weights of the synthesized breakdown. -/
def cbsWeights : List (String × ℚ) :=
  [("rawmaterial", 35 / 100), ("machine", 20 / 100), ("labor", 15 / 100),
   ("overhead", 10 / 100), ("energy", 8 / 100), ("packaginglogistics", 7 / 100),
   ("profit", 5 / 100)]

/-- Embedding of utils.suggest_cbs_structure: each component is the
average price scaled by its weight.  The source's final loop zeroing
NaN or infinite components never fires over rationals and is omitted. -/
def suggest_cbs_structure (row : Row) : List (String × ℚ) :=
  cbsWeights.map (fun w => (w.1, avg_price row * w.2))

/-- Spanish month-abbreviation table used for period keys. -/
def monthTableEs : List (String × Nat) :=
  [("ene", 1), ("feb", 2), ("mar", 3), ("abr", 4), ("may", 5), ("jun", 6),
   ("jul", 7), ("ago", 8), ("sep", 9), ("oct", 10), ("nov", 11), ("dic", 12)]

/-- Period-key parsing of utils.create_market_trend_chart: split on the
dash, look the month up in the Spanish table, add 2000 to the two-digit
year; any failure (wrong shape, unknown month, unparseable year,
datetime range) falls back to the current month, as the source's
except and else branches do. -/
def parseTrendDate (now : Nat × Nat) (s : String) : Nat × Nat :=
  match s.toList.splitOn '-' with
  | [m, y] =>
      match (monthTableEs.find? (fun p => p.1.toList == m)).map (fun p => p.2) with
      | some mn =>
          match parseNat y with
          | some yn => if 2000 + yn ≤ 9999 then (2000 + yn, mn) else now
          | none => now
      | none => now
  | _ => now

/-- The value cleaning of utils.create_market_trend_chart: a finite
number passes through, anything else (null, NaN, infinity, or a string
whose isinf check raises into the except branch) becomes 0.0. -/
def cleanTrendValue : PVal → ℚ
  | .vnum q => q
  | _ => 0

/-- Embedding of utils.create_market_trend_chart: error marker on an
empty series, otherwise one date and one value per input row, with the
source's defensive length check retained. -/
def create_market_trend_chart (now : Nat × Nat) (trend : List (String × PVal))
    (title : String) : ChartSpec :=
  if trend = [] then .err ("No data available for " ++ title)
  else
    if (trend.map (fun r => cleanTrendValue r.2)) = [] ∨
        (trend.map (fun r => cleanTrendValue r.2)).length ≠
          (trend.map (fun r => parseTrendDate now r.1)).length then
      .err ("Invalid data for " ++ title)
    else
      .trendLine (trend.map (fun r => parseTrendDate now r.1))
        (trend.map (fun r => cleanTrendValue r.2)) title

/-! ## Month formatter (src/utils.py, get_current_month_format and
get_last_12_months)

The 30-day steps of datetime subtraction are embedded by iterating a
calendar-exact previous-day function on proleptic Gregorian dates; the
day index below makes the iteration's distance to the calendar origin
explicit for the ordering proofs. -/

/-- A Python datetime date (time of day is irrelevant to the period
keys). -/
structure PyDate where
  year : Nat
  month : Nat
  day : Nat
deriving DecidableEq

/-- Gregorian leap-year rule. -/
def isLeap (y : Nat) : Bool := y % 4 = 0 && (y % 100 ≠ 0 || y % 400 = 0)

/-- Length of a month. -/
def daysInMonth (y m : Nat) : Nat :=
  if m = 2 then (if isLeap y then 29 else 28)
  else if m = 4 ∨ m = 6 ∨ m = 9 ∨ m = 11 then 30
  else 31

/-- A calendar date datetime would accept (year range aside). -/
def ValidDate (d : PyDate) : Prop :=
  1 ≤ d.month ∧ d.month ≤ 12 ∧ 1 ≤ d.day ∧ d.day ≤ daysInMonth d.year d.month

/-- The previous calendar day. -/
def prevDay (d : PyDate) : PyDate :=
  if 2 ≤ d.day then ⟨d.year, d.month, d.day - 1⟩
  else if 2 ≤ d.month then ⟨d.year, d.month - 1, daysInMonth d.year (d.month - 1)⟩
  else ⟨d.year - 1, 12, 31⟩

/-- Python date minus a timedelta of k days. -/
def subDays (d : PyDate) : Nat → PyDate
  | 0 => d
  | k + 1 => prevDay (subDays d k)

/-- Days of year y strictly before month m. -/
def monthsBefore (y : Nat) : Nat → Nat
  | 0 => 0
  | 1 => 0
  | m + 1 => monthsBefore y m + daysInMonth y m

/-- Length of a calendar year. -/
def daysInYear (y : Nat) : Nat := monthsBefore y 13

/-- Days strictly before year y from the proleptic origin. -/
def daysBeforeYear : Nat → Nat
  | 0 => 0
  | y + 1 => daysBeforeYear y + daysInYear y

/-- Position of a date in days from the origin. -/
def dayIndex (d : PyDate) : Nat :=
  daysBeforeYear d.year + monthsBefore d.year d.month + (d.day - 1)

/-- The locale month-abbreviation table used for period keys. -/
def monthNamesEs : List String :=
  ["ene", "feb", "mar", "abr", "may", "jun", "jul", "ago", "sep", "oct", "nov", "dic"]

/-- Python str(year) followed by taking the last two characters: the
last two decimal digits (zero padded) for years of at least two digits,
the bare digit below ten. -/
def lastTwo (y : Nat) : String :=
  if y < 10 then toString y
  else if y % 100 < 10 then "0" ++ toString (y % 100)
  else toString (y % 100)

/-- The period key of a date: locale month abbreviation, dash, last two
year digits. -/
def formatKey (d : PyDate) : String :=
  monthNamesEs.getD (d.month - 1) "" ++ "-" ++ lastTwo d.year

/-- Embedding of utils.get_current_month_format at evaluation time now. -/
def get_current_month_format (now : PyDate) : String := formatKey now

/-- The calendar month a key was generated from. -/
def keyPair (d : PyDate) : Nat × Nat := (d.year, d.month)

/-- Embedding of utils.get_last_12_months at evaluation time now: keys
of now minus 30 i days for i = 0..11, reversed into chronological
order. -/
def get_last_12_months (now : PyDate) : List String :=
  ((List.range 12).map (fun i => formatKey (subDays now (30 * i)))).reverse

/-- The generating (year, month) pairs of the same twelve keys, in the
same order. -/
def last12Pairs (now : PyDate) : List (Nat × Nat) :=
  ((List.range 12).map (fun i => keyPair (subDays now (30 * i)))).reverse

/-- Non-decreasing chronological order on encoded (year, month) pairs. -/
def keyLe (a b : Nat × Nat) : Prop :=
  a.1 < b.1 ∨ (a.1 = b.1 ∧ a.2 ≤ b.2)

/-! ## Market-index extraction, analysis generator and chat orchestrator
(src/main.py, src/ai_agent.py)

The store and the completion service are the request's environment; the
endpoint is a pure function of them.  Number cells pass through float()
unchanged (NaN and infinities included); a string index cell is
modelled as unparseable, which agrees with Python on every value any
claim touches (Python float would additionally accept numeric
strings). -/

/-- float(v) applied during index extraction under the try/except. -/
def floatOf : PVal → Option PVal
  | .vnum q => some (.vnum q)
  | .vnan => some .vnan
  | .vinf b => some (.vinf b)
  | _ => none

/-- Per-index extraction of main.chat_endpoint: first row if the store
returned a non-empty list, then .get of monthlyavgeuro (a missing key
or a JSON null gives Python None and is skipped by the is-not-None
check), then float under the try/except. -/
def extractIndexValue (rows : Option (List Row)) : Option PVal :=
  match rows with
  | some (r :: _) =>
      match rowGet r "monthlyavgeuro" with
      | some PVal.vnull => none
      | some v => floatOf v
      | none => none
  | _ => none

/-- Embedding of main.safe_float: None, NaN and infinity (and any
unconvertible value) collapse to 0.0; finite numbers pass through. -/
def safe_float (v : Option PVal) : ℚ :=
  match v with
  | some (.vnum q) => q
  | _ => 0

/-- The three market-index floats of the chat response. -/
structure MarketIndices where
  raw_material : ℚ
  electricity : ℚ
  gas : ℚ
deriving DecidableEq

/-- An HTTP error outcome of the endpoint. -/
structure HttpError where
  status : Nat
  detail : String
deriving DecidableEq

/-- The upstream world one /chat request observes: the request body,
the store responses for the part, the breakdown, the three
current-period index queries and the three trend queries, the
completion outcome, and the evaluation date. -/
structure ChatEnv where
  message : String
  partRow : Option Row
  cbsRow : Option Row
  rawIndexRows : Option (List Row)
  elecIndexRows : Option (List Row)
  gasIndexRows : Option (List Row)
  rawTrend : Option (List (String × PVal))
  elecTrend : Option (List (String × PVal))
  gasTrend : Option (List (String × PVal))
  completion : Except String (Option String)
  now : PyDate

/-- The material cell as the source reads it: the cell when the column
is present, the literal Unknown otherwise.  A non-string material cell
would raise inside the mapper in Python; the endpoint theorems carry a
hypothesis excluding that regime. -/
def materialOf (row : Row) : String :=
  match rowGet row "material" with
  | some (.vstr s) => s
  | _ => "Unknown"

/-- Value rendering of a dict entry in the fallback report: the value
when the key is present, N/A otherwise (the digits of the rendering are
not observed by any claim). -/
def dictGetRender (d : List (String × ℚ)) (k : String) : String :=
  match d.find? (fun p => p.1 == k) with
  | some p => toString p.2
  | none => "N/A"

/-- Embedding of ai_agent._generate_fallback_analysis: the deterministic
templated report built only from locally available data.  It is a total
function: the fallback itself cannot fail. -/
def fallbackAnalysis (partDataEmpty cbsEmpty : Bool)
    (market_indices : List (String × ℚ)) (part_number : String) : String :=
  "\n        # COST ANALYSIS REPORT - " ++ part_number ++
  ("\n\n        ## Executive Summary\n        Analysis completed for part " ++ part_number ++
   (". The system has processed available data to provide insights for negotiation purposes.\n\n        ## Key Findings\n        - Part identified in master file: " ++
    (if partDataEmpty then "No" else "Yes") ++
    "\n        - CBS data available: " ++ (if cbsEmpty then "No" else "Yes") ++
    "\n        - Market indices retrieved: " ++ toString market_indices.length ++
    " out of 3 expected\n\n        ## Market Conditions\n        " ++
    (if market_indices.length ≠ 0 then
      "\n        - Raw Material Index: " ++ dictGetRender market_indices "raw_material" ++
      " €/T\n        - Electricity Index: " ++ dictGetRender market_indices "electricity" ++
      " €/MWh\n        - Natural Gas Index: " ++ dictGetRender market_indices "gas" ++
      " €/MWh\n            "
     else "") ++
    "\n\n        ## Recommendations\n        1. Review the provided charts for visual analysis of trends\n        2. Compare part price evolution with market indices\n        3. Identify negotiation opportunities based on market vs. supplier price movements\n        4. Consider requesting detailed cost breakdown from supplier if not available\n\n        ## Next Steps\n        - Schedule supplier meeting to discuss pricing\n        - Prepare negotiation strategy based on market analysis\n        - Monitor market trends for future negotiations\n        "))

/-- Embedding of ai_agent.generate_analysis_and_insights: on a
successful completion the content (or the default sentence when the
content is None or empty); on any exception from the call, the
templated fallback.  Context and prompt preparation inside the same
try cannot raise in the model. -/
def generate_analysis_and_insights (partDataEmpty cbsEmpty : Bool)
    (market_indices : List (String × ℚ)) (part_number : String)
    (completion : Except String (Option String)) : String :=
  match completion with
  | .ok content =>
      match content with
      | some t => if t = "" then "Analysis completed successfully." else t
      | none => "Analysis completed successfully."
  | .error _ => fallbackAnalysis partDataEmpty cbsEmpty market_indices part_number

/-- The raw-material current value the pipeline ends up with: queried
only when the alternate-index material mapping exists. -/
def rawFetched (env : ChatEnv) : Option PVal :=
  match env.partRow with
  | some row =>
      if (map_material_to_index (materialOf row) true).isSome then
        extractIndexValue env.rawIndexRows
      else none
  | none => none

/-- The electricity current value the pipeline ends up with. -/
def elecFetched (env : ChatEnv) : Option PVal :=
  extractIndexValue env.elecIndexRows

/-- The gas current value the pipeline ends up with. -/
def gasFetched (env : ChatEnv) : Option PVal :=
  extractIndexValue env.gasIndexRows

/-- The chat response as far as the claims observe it, plus the
argument the endpoint passed as market_indices to the analysis
generator (recorded verbatim from the call site). -/
structure ChatResult where
  part_number : String
  chart1 : ChartSpec
  chart2 : ChartSpec
  market_indices : MarketIndices
  chart3 : ChartSpec
  chart4 : ChartSpec
  chart5 : ChartSpec
  analysis : String
  success : Bool
  message : String
  generatorIndices : List (String × ℚ)

/-- Embedding of main.chat_endpoint.  The market_indices_clean binding
is initialized to the all-zero mapping at the top of the handler, is
passed to the analysis generator, and is recomputed from the fetched
values only after that call, exactly as in the source; the response
then carries the recomputed values.  JSON sanitization
(clean_for_json, convert_ndarrays_to_lists, ensure_dict) is the
identity on the model's charts, whose leaves are finite by
construction, and is omitted. -/
def chat_endpoint (env : ChatEnv) : Except HttpError ChatResult :=
  let market_indices_clean0 : List (String × ℚ) :=
    [("raw_material", 0), ("electricity", 0), ("gas", 0)]
  match extract_part_number env.message with
  | none => .error ⟨400,
      "No valid part number found in the message. Please include a part number (e.g., PA-10197)."⟩
  | some part_number =>
      match env.partRow with
      | none => .error ⟨404, "Part " ++ part_number ++ " not found in the master file."⟩
      | some part_data =>
          let chart1 := create_price_trend_chart part_data
          let cbs_data : Row :=
            match env.cbsRow with
            | none => (suggest_cbs_structure part_data).map (fun p => (p.1, PVal.vnum p.2))
            | some c => c
          let is_suggested : Bool := env.cbsRow.isNone
          let chart2 := create_cbs_pie_chart cbs_data part_number is_suggested
          let chart3 := create_market_trend_chart (keyPair env.now)
            (if (map_material_to_index (materialOf part_data) true).isSome then
              env.rawTrend.getD []
             else []) "Raw Material Index Trend"
          let chart4 := create_market_trend_chart (keyPair env.now)
            (env.elecTrend.getD []) "Energy Index Electricity Trend"
          let chart5 := create_market_trend_chart (keyPair env.now)
            (env.gasTrend.getD []) "Energy Index Gas Trend"
          let analysis := generate_analysis_and_insights false false
            market_indices_clean0 part_number env.completion
          .ok
            { part_number := part_number
              chart1 := chart1
              chart2 := chart2
              market_indices :=
                ⟨safe_float (rawFetched env), safe_float (elecFetched env),
                 safe_float (gasFetched env)⟩
              chart3 := chart3
              chart4 := chart4
              chart5 := chart5
              analysis := analysis
              success := true
              message := "Analysis completed successfully for part " ++ part_number
              generatorIndices := market_indices_clean0 }

/-- Success flag of an endpoint outcome. -/
def resultSuccess : Except HttpError ChatResult → Option Bool
  | .ok r => some r.success
  | .error _ => none

/-- Analysis text of an endpoint outcome. -/
def resultAnalysis : Except HttpError ChatResult → Option String
  | .ok r => some r.analysis
  | .error _ => none

/-- Market-indices mapping of an endpoint outcome. -/
def resultMarketIndices : Except HttpError ChatResult → Option MarketIndices
  | .ok r => some r.market_indices
  | .error _ => none

/-- The mapping passed to the analysis generator. -/
def resultGeneratorIndices : Except HttpError ChatResult → Option (List (String × ℚ))
  | .ok r => some r.generatorIndices
  | .error _ => none

/-- The claim's absent-upstream condition on an extracted index value:
no row was returned, or the value was null, NaN or infinite; i.e. the
extraction did not end in a finite number. -/
def absentUpstream (v : Option PVal) : Prop := ∀ q : ℚ, v ≠ some (PVal.vnum q)

/-- No price cell of the row is a string (the synthesis comparison has
no try around it in Python). -/
def pricesNoStr (r : Row) : Bool :=
  (r.filter (fun f => isPriceCol f.1)).all
    (fun f => match f.2 with | .vstr _ => false | _ => true)

/-- No canonical breakdown cell of the row is a string (the pie
comparison has no try around it in Python). -/
def cbsNoStr (r : Row) : Bool :=
  cbsComponents.all
    (fun c => match rowGet r c with | some (.vstr _) => false | _ => true)

/-- The material cell is a string or absent (a non-string cell raises
inside the mapper in Python). -/
def materialStrOk (r : Row) : Bool :=
  match rowGet r "material" with
  | some (.vstr _) => true
  | none => true
  | _ => false

/-- The regime in which the embedding agrees with Python on every code
path of the endpoint. -/
def chatEnvOk (env : ChatEnv) : Bool :=
  (match env.partRow with
   | some r => pricesNoStr r && materialStrOk r
   | none => true) &&
  (match env.cbsRow with
   | some c => cbsNoStr c
   | none => true)

/-- Concrete environment with a found part, all three index values
present and non-zero, and a failing completion call. -/
def envC1 : ChatEnv :=
  { message := "analyze part PA-10197"
    partRow := some [("PartNumber", .vstr "PA-10197"), ("material", .vstr "PA6"),
      ("pricejan2023", .vnum 100)]
    cbsRow := some [("rawmaterial", .vnum 40), ("machine", .vnum 30), ("labor", .vnum 30)]
    rawIndexRows := some [[("monthlyavgeuro", .vnum 42)]]
    elecIndexRows := some [[("monthlyavgeuro", .vnum 90)]]
    gasIndexRows := some [[("monthlyavgeuro", .vnum 35)]]
    rawTrend := some [("jul-25", .vnum 41)]
    elecTrend := some [("jul-25", .vnum 88)]
    gasTrend := some [("jul-25", .vnum 33)]
    completion := .error "completion unavailable"
    now := ⟨2025, 7, 15⟩ }

/-- Concrete environment in which all three index values are absent
upstream: no raw-material rows, a NaN electricity value, a gas row
without the value column. -/
def envC10 : ChatEnv :=
  { message := "increase price of PA-10197 by 10%"
    partRow := some [("PartNumber", .vstr "PA-10197"), ("material", .vstr "PA6"),
      ("pricejan2023", .vnum 100)]
    cbsRow := some [("rawmaterial", .vnum 40), ("labor", .vnum 60)]
    rawIndexRows := none
    elecIndexRows := some [[("monthlyavgeuro", .vnan)]]
    gasIndexRows := some [[("month", .vstr "jul-25")]]
    rawTrend := none
    elecTrend := none
    gasTrend := none
    completion := .ok (some "All good.")
    now := ⟨2025, 7, 15⟩ }

/-! ## Lemmas about substring containment -/

theorem leadEq_of_append {n1 n2 h : List Char} (hl : leadEq (n1 ++ n2) h = true) :
    leadEq n1 h = true := by
  induction n1 generalizing h with
  | nil => rfl
  | cons a as ih =>
    cases h with
    | nil => simp [leadEq] at hl
    | cons b bs =>
      simp only [List.cons_append, leadEq, Bool.and_eq_true] at hl ⊢
      exact ⟨hl.1, ih hl.2⟩

theorem subOccurs_of_append {n1 n2 h : List Char}
    (hs : subOccurs (n1 ++ n2) h = true) : subOccurs n1 h = true := by
  induction h with
  | nil =>
    simp only [subOccurs] at hs ⊢
    exact leadEq_of_append hs
  | cons c t ih =>
    simp only [subOccurs, Bool.or_eq_true] at hs ⊢
    rcases hs with hs | hs
    · exact Or.inl (leadEq_of_append hs)
    · exact Or.inr (ih hs)

theorem anyKey_pa66_imp_pa6 {l : List Char}
    (h : anyKey l ["pa66", "polyamide 66", "nylon 66"] = true) :
    anyKey l ["pa6", "polyamide 6", "nylon 6"] = true := by
  have e1 : ("pa66".toList) = "pa6".toList ++ ['6'] := by decide
  have e2 : ("polyamide 66".toList) = "polyamide 6".toList ++ ['6'] := by decide
  have e3 : ("nylon 66".toList) = "nylon 6".toList ++ ['6'] := by decide
  simp only [anyKey, List.any_cons, List.any_nil, Bool.or_eq_true, Bool.or_false] at h ⊢
  rcases h with h | h | h
  · exact Or.inl (subOccurs_of_append (e1 ▸ h))
  · exact Or.inr (Or.inl (subOccurs_of_append (e2 ▸ h)))
  · exact Or.inr (Or.inr (subOccurs_of_append (e3 ▸ h)))

theorem map_material_false_ne_pa66 (s : String) :
    map_material_to_index s false ≠ some "PA66" := by
  by_cases h0 : s = ""
  · simp [map_material_to_index, h0]
  · cases h1 : anyKey (lowerL s) ["pa6", "polyamide 6", "nylon 6"]
    · cases h2 : anyKey (lowerL s) ["pa66", "polyamide 66", "nylon 66"]
      · simp only [map_material_to_index, h0, if_false, h1, h2, Bool.false_eq_true]
        split_ifs <;> simp
      · intro _
        exact absurd (anyKey_pa66_imp_pa6 h2) (by simp [h1])
    · simp [map_material_to_index, h0, h1]

/-- C2 counterexample: contrary to the claim, the default table never
returns the category PA66 for any material text, because each PA66
keyword has a PA6 keyword as a prefix and the PA6 branch is tried
first. -/
theorem C2_counterexample : ¬ ∃ s : String, map_material_to_index s false = some "PA66" := by
  rintro ⟨s, hs⟩
  exact map_material_false_ne_pa66 s hs

/-- C2 (amended): with for_alt_index = false the categories PA6, PP, PPS
and PPA are each returned for some material text, but PA66 is returned
for no text at all (its keywords are shadowed by the PA6 branch); with
for_alt_index = true, every text containing a sulfide-polymer keyword
and no PA6 keyword maps to PP, the same category as polypropylene
text. -/
theorem C2_material_mapper_amended :
    (map_material_to_index "pa6" false = some "PA6" ∧
     map_material_to_index "polypropylene" false = some "PP" ∧
     map_material_to_index "polyphenylene sulfide" false = some "PPS" ∧
     map_material_to_index "polyphthalamide" false = some "PPA") ∧
    (∀ s : String, map_material_to_index s false ≠ some "PA66") ∧
    (∀ s : String,
      (subOccurs "pps".toList (lowerL s) = true ∨
       subOccurs "polyphenylene sulfide".toList (lowerL s) = true) →
      anyKey (lowerL s) ["pa6", "polyamide 6", "nylon 6"] = false →
      map_material_to_index s true = some "PP") ∧
    map_material_to_index "polypropylene" true = some "PP" := by
  refine ⟨⟨by decide, by decide, by decide, by decide⟩, map_material_false_ne_pa66, ?_, by decide⟩
  intro s hsub hpa6
  have h0 : ¬ s = "" := by
    rintro rfl
    rcases hsub with h | h <;> exact absurd h (by decide)
  have hpp : anyKey (lowerL s) ["pp", "polypropylene", "pps", "polyphenylene sulfide"] = true := by
    simp only [anyKey, List.any_cons, List.any_nil, Bool.or_eq_true, Bool.or_false]
    rcases hsub with h | h
    · exact Or.inr (Or.inr (Or.inl h))
    · exact Or.inr (Or.inr (Or.inr h))
  have hpa66 : anyKey (lowerL s) ["pa66", "polyamide 66", "nylon 66"] = false := by
    cases hh : anyKey (lowerL s) ["pa66", "polyamide 66", "nylon 66"]
    · rfl
    · exact absurd (anyKey_pa66_imp_pa6 hh) (by simp [hpa6])
  unfold map_material_to_index
  simp [h0, hpa6, hpa66, hpp]

/-- Witness instantiating the amended C2 theorem at concrete inputs. -/
theorem C2_material_mapper_amended_witness :
    map_material_to_index "pps" true = some "PP" ∧
    map_material_to_index "pa66" false ≠ some "PA66" :=
  ⟨C2_material_mapper_amended.2.2.1 "pps" (Or.inl (by decide)) (by decide),
   C2_material_mapper_amended.2.1 "pa66"⟩

/-! ## Lemmas about the pattern scanners -/

theorem takeW_append_dropW (p : Char → Bool) (l : List Char) :
    takeW p l ++ dropW p l = l := by
  induction l with
  | nil => rfl
  | cons c t ih =>
    by_cases hc : p c = true
    · simp [takeW, dropW, hc, ih]
    · simp [takeW, dropW, hc]

theorem mem_takeW {p : Char → Bool} {l : List Char} {c : Char}
    (hc : c ∈ takeW p l) : p c = true := by
  induction l with
  | nil => simp [takeW] at hc
  | cons d t ih =>
    by_cases hd : p d = true
    · simp only [takeW, hd, if_true, List.mem_cons] at hc
      rcases hc with rfl | hc
      · exact hd
      · exact ih hc
    · simp [takeW, hd] at hc

theorem takeW_of_all {p : Char → Bool} {xs : List Char}
    (h : ∀ c ∈ xs, p c = true) : takeW p xs = xs := by
  induction xs with
  | nil => rfl
  | cons c t ih =>
    have hc := h c (List.mem_cons_self c t)
    simp only [takeW, hc, if_true]
    exact congrArg (c :: ·) (ih fun d hd => h d (List.mem_cons_of_mem c hd))

theorem takeW_append_stop {p : Char → Bool} {xs : List Char} {y : Char} {r : List Char}
    (hall : ∀ c ∈ xs, p c = true) (hy : p y = false) :
    takeW p (xs ++ y :: r) = xs ∧ dropW p (xs ++ y :: r) = y :: r := by
  induction xs with
  | nil => simp [takeW, dropW, hy]
  | cons c t ih =>
    have hc := hall c (List.mem_cons_self c t)
    have ihr := ih fun d hd => hall d (List.mem_cons_of_mem c hd)
    simp only [List.cons_append, takeW, dropW, hc, if_true]
    exact ⟨congrArg (c :: ·) ihr.1, ihr.2⟩

theorem takeW_cons_ne_nil {p : Char → Bool} {d : Char} {r : List Char}
    (hd : p d = true) : takeW p (d :: r) ≠ [] := by
  simp [takeW, hd]

theorem takeW_ne_nil_head {p : Char → Bool} {l : List Char}
    (h : takeW p l ≠ []) : ∃ c t, l = c :: t ∧ p c = true := by
  cases l with
  | nil => simp [takeW] at h
  | cons c t =>
    by_cases hc : p c = true
    · exact ⟨c, t, rfl, hc⟩
    · simp [takeW, hc] at h

theorem ws_enum {c : Char} (h : isWs c = true) :
    c = ' ' ∨ c = '\t' ∨ c = '\n' ∨ c = '\r' ∨ c = '\x0b' ∨ c = '\x0c' := by
  simp only [isWs, Bool.or_eq_true, beq_iff_eq] at h
  tauto

theorem let_not_ws {c : Char} (h : isLet c = true) : isWs c = false := by
  cases hw : isWs c
  · rfl
  · rcases ws_enum hw with rfl | rfl | rfl | rfl | rfl | rfl <;> exact absurd h (by decide)

theorem dig_not_ws {c : Char} (h : isDig c = true) : isWs c = false := by
  cases hw : isWs c
  · rfl
  · rcases ws_enum hw with rfl | rfl | rfl | rfl | rfl | rfl <;> exact absurd h (by decide)

theorem tryLD_cons_eq {l : List Char} {c : Char} {r2 : List Char}
    (h1 : ¬ takeW isLet l = []) (hd : dropW isLet l = c :: r2) :
    tryLD l =
      if c = '-' then
        if takeW isDig r2 = [] then none
        else some (takeW isLet l ++ '-' :: takeW isDig r2)
      else none := by
  unfold tryLD
  rw [if_neg h1, hd]

theorem tryLD_eq_some {l m : List Char} (h : tryLD l = some m) :
    LDshape m ∧ ∃ b, l = m ++ b := by
  by_cases h1 : takeW isLet l = []
  · rw [tryLD, if_pos h1] at h
    exact absurd h (by simp)
  · cases hd : dropW isLet l with
    | nil => rw [tryLD, if_neg h1, hd] at h; exact absurd h (by simp)
    | cons c r2 =>
      rw [tryLD_cons_eq h1 hd] at h
      by_cases hc : c = '-'
      · subst hc
        rw [if_pos rfl] at h
        by_cases h2 : takeW isDig r2 = []
        · simp [h2] at h
        · rw [if_neg h2] at h
          have hm : takeW isLet l ++ '-' :: takeW isDig r2 = m := Option.some_injective _ h
          refine ⟨⟨takeW isLet l, takeW isDig r2, hm.symm, h1, fun c hc => mem_takeW hc,
            h2, fun c hc => mem_takeW hc⟩, dropW isDig r2, ?_⟩
          have hl : takeW isLet l ++ dropW isLet l = l := takeW_append_dropW isLet l
          have hr : takeW isDig r2 ++ dropW isDig r2 = r2 := takeW_append_dropW isDig r2
          conv_lhs => rw [← hl, hd]
          rw [← hm, List.append_assoc, List.cons_append, hr]
      · rw [if_neg hc] at h; exact absurd h (by simp)

theorem tryLD_of_shape {m : List Char} (h : LDshape m) : tryLD m = some m := by
  obtain ⟨ls, ds, rfl, hne, hall, hdne, hdall⟩ := h
  have hstop := takeW_append_stop (p := isLet) (y := '-') (r := ds) hall (by decide)
  rw [tryLD_cons_eq (by rw [hstop.1]; exact hne) hstop.2, if_pos rfl,
    takeW_of_all hdall, if_neg hdne, hstop.1]

theorem tryLD_isSome_at_head {ls ds b : List Char} (hne : ls ≠ []) (hall : AllLet ls)
    (hdne : ds ≠ []) (hdall : AllDig ds) :
    (tryLD (ls ++ '-' :: (ds ++ b))).isSome = true := by
  have hstop := takeW_append_stop (p := isLet) (y := '-') (r := ds ++ b) hall (by decide)
  obtain ⟨d, ds', rfl⟩ : ∃ d ds', ds = d :: ds' := by
    cases ds with
    | nil => exact absurd rfl hdne
    | cons d ds' => exact ⟨d, ds', rfl⟩
  have hdig : isDig d = true := hdall d (List.mem_cons_self d ds')
  have htk : takeW isDig (d :: (ds' ++ b)) ≠ [] := takeW_cons_ne_nil hdig
  rw [tryLD_cons_eq (by rw [hstop.1]; exact hne) hstop.2, if_pos rfl, List.cons_append,
    if_neg htk]
  rfl

theorem scanLD_eq_some {l m : List Char} (h : scanLD l = some m) :
    LDshape m ∧ ∃ a b, l = a ++ m ++ b := by
  induction l with
  | nil => exact absurd h (by simp [scanLD])
  | cons c t ih =>
    cases htry : tryLD (c :: t) with
    | some m' =>
      rw [scanLD, htry] at h
      have hm : m' = m := Option.some_injective _ h
      subst hm
      obtain ⟨hsh, b, hb⟩ := tryLD_eq_some htry
      exact ⟨hsh, [], b, by simpa using hb⟩
    | none =>
      rw [scanLD, htry] at h
      obtain ⟨hsh, a, b, hb⟩ := ih h
      exact ⟨hsh, c :: a, b, by simp [hb]⟩

theorem scanLD_isSome_of_tryLD {c : Char} {t : List Char}
    (h : (tryLD (c :: t)).isSome = true) : (scanLD (c :: t)).isSome = true := by
  cases htry : tryLD (c :: t) with
  | some m => simp only [scanLD]; rw [htry]; rfl
  | none => rw [htry] at h; exact absurd h (by simp)

theorem scanLD_cons_isSome {c : Char} {t : List Char}
    (h : (scanLD t).isSome = true) : (scanLD (c :: t)).isSome = true := by
  cases htry : tryLD (c :: t) with
  | some m => simp only [scanLD]; rw [htry]; rfl
  | none => simp only [scanLD]; rw [htry]; exact h

theorem scanLD_isSome_append_left (a t : List Char)
    (h : (scanLD t).isSome = true) : (scanLD (a ++ t)).isSome = true := by
  induction a with
  | nil => simpa using h
  | cons x a' ih => rw [List.cons_append]; exact scanLD_cons_isSome ih

theorem scanLD_isSome_append_var (a : List Char) (t : List Char)
    (h : (scanLD t).isSome = true) : ∀ u, u = a ++ t → (scanLD u).isSome = true :=
  fun _ hu => hu ▸ scanLD_isSome_append_left a t h

theorem scanLD_isSome_of_has {l : List Char} (h : HasLDsub l) :
    (scanLD l).isSome = true := by
  obtain ⟨a, ls, ds, b, rfl, hne, hall, hdne, hdall⟩ := h
  obtain ⟨c, ls', rfl⟩ : ∃ c ls', ls = c :: ls' := by
    cases ls with
    | nil => exact absurd rfl hne
    | cons c ls' => exact ⟨c, ls', rfl⟩
  have hsome := tryLD_isSome_at_head hne hall hdne hdall (b := b)
  rw [List.cons_append] at hsome
  simp only [List.append_assoc, List.cons_append]
  exact scanLD_isSome_append_var a (c :: (ls' ++ ('-' :: (ds ++ b))))
    (scanLD_isSome_of_tryLD hsome) _ rfl

theorem scanLD_of_shape {m : List Char} (h : LDshape m) : scanLD m = some m := by
  have htry := tryLD_of_shape h
  obtain ⟨ls, ds, hm, hne, hall, hdne, hdall⟩ := h
  obtain ⟨c, ls', rfl⟩ : ∃ c ls', ls = c :: ls' := by
    cases ls with
    | nil => exact absurd rfl hne
    | cons c ls' => exact ⟨c, ls', rfl⟩
  subst hm
  rw [List.cons_append] at htry ⊢
  rw [scanLD, htry]

theorem tryPA_eq_some {l m : List Char} (h : tryPA l = some m) :
    PAshape m ∧ ∃ b, l = m ++ b := by
  match l with
  | [] => exact absurd h (by simp [tryPA])
  | [c1] => exact absurd h (by simp [tryPA])
  | [c1, c2] => exact absurd h (by simp [tryPA])
  | c1 :: c2 :: c3 :: r =>
    by_cases hcond : (paPair c1 c2 && (c3 == '-')) = true
    · simp only [tryPA, if_pos hcond] at h
      by_cases h2 : takeW isDig r = []
      · rw [if_pos h2] at h; exact absurd h (by simp)
      · rw [if_neg h2] at h
        have hm : c1 :: c2 :: '-' :: takeW isDig r = m := Option.some_injective _ h
        rw [Bool.and_eq_true] at hcond
        obtain ⟨hp, hc⟩ := hcond
        have hc3 : c3 = '-' := beq_iff_eq.mp hc
        subst hc3
        refine ⟨⟨c1, c2, takeW isDig r, hm.symm, hp, h2, fun c hc => mem_takeW hc⟩,
          dropW isDig r, ?_⟩
        have hr : takeW isDig r ++ dropW isDig r = r := takeW_append_dropW isDig r
        rw [← hm]
        simp [List.cons_append, hr]
    · simp only [tryPA, if_neg hcond] at h
      exact absurd h (by simp)

theorem tryPA_at_head {c1 c2 d : Char} {r : List Char}
    (hp : paPair c1 c2 = true) (hd : isDig d = true) :
    (tryPA (c1 :: c2 :: '-' :: (d :: r))).isSome = true := by
  have htk : takeW isDig (d :: r) ≠ [] := takeW_cons_ne_nil hd
  simp only [tryPA, hp, if_neg htk]
  simp

theorem tryPA_of_shape {m : List Char} (h : PAshape m) : tryPA m = some m := by
  obtain ⟨c1, c2, ds, rfl, hp, hdne, hdall⟩ := h
  simp only [tryPA, hp, takeW_of_all hdall, if_neg hdne]
  simp

theorem scanPA_isSome_of_tryPA {c : Char} {t : List Char}
    (h : (tryPA (c :: t)).isSome = true) : (scanPA (c :: t)).isSome = true := by
  cases htry : tryPA (c :: t) with
  | some m => simp only [scanPA]; rw [htry]; rfl
  | none => rw [htry] at h; exact absurd h (by simp)

theorem scanPA_cons_isSome {c : Char} {t : List Char}
    (h : (scanPA t).isSome = true) : (scanPA (c :: t)).isSome = true := by
  cases htry : tryPA (c :: t) with
  | some m => simp only [scanPA]; rw [htry]; rfl
  | none => simp only [scanPA]; rw [htry]; exact h

theorem scanPA_isSome_append_left (a t : List Char)
    (h : (scanPA t).isSome = true) : (scanPA (a ++ t)).isSome = true := by
  induction a with
  | nil => simpa using h
  | cons x a' ih => rw [List.cons_append]; exact scanPA_cons_isSome ih

theorem scanPA_eq_some {l m : List Char} (h : scanPA l = some m) :
    PAshape m ∧ ∃ a b, l = a ++ m ++ b := by
  induction l with
  | nil => exact absurd h (by simp [scanPA])
  | cons c t ih =>
    cases htry : tryPA (c :: t) with
    | some m' =>
      rw [scanPA, htry] at h
      have hm : m' = m := Option.some_injective _ h
      subst hm
      obtain ⟨hsh, b, hb⟩ := tryPA_eq_some htry
      exact ⟨hsh, [], b, by simpa using hb⟩
    | none =>
      rw [scanPA, htry] at h
      obtain ⟨hsh, a, b, hb⟩ := ih h
      exact ⟨hsh, c :: a, b, by simp [hb]⟩

theorem scanPA_of_shape {m : List Char} (h : PAshape m) : scanPA m = some m := by
  have htry := tryPA_of_shape h
  obtain ⟨c1, c2, ds, hm, hp, hdne, hdall⟩ := h
  subst hm
  rw [scanPA, htry]

theorem hasPA_of_scanPA {l m : List Char} (h : scanPA l = some m) : HasPA l := by
  obtain ⟨⟨c1, c2, ds, hm, hp, hdne, hdall⟩, a, b, hab⟩ := scanPA_eq_some h
  obtain ⟨d, ds', rfl⟩ : ∃ d ds', ds = d :: ds' := by
    cases ds with
    | nil => exact absurd rfl hdne
    | cons d ds' => exact ⟨d, ds', rfl⟩
  exact ⟨a, c1, c2, d, ds' ++ b, by simp [hab, hm, List.append_assoc],
    hp, hdall d (List.mem_cons_self d ds')⟩

theorem scanPA_isSome_of_hasPA {l : List Char} (h : HasPA l) :
    (scanPA l).isSome = true := by
  obtain ⟨a, c1, c2, d, r, rfl, hp, hd⟩ := h
  exact scanPA_isSome_append_left a _ (scanPA_isSome_of_tryPA (tryPA_at_head hp hd))

theorem hasPA_extend (a b : List Char) {m : List Char} (h : HasPA m) :
    HasPA (a ++ m ++ b) := by
  obtain ⟨a', c1, c2, d, r, rfl, hp, hd⟩ := h
  exact ⟨a ++ a', c1, c2, d, r ++ b, by simp [List.append_assoc], hp, hd⟩

theorem scanPA_none_sub {s a m b : List Char} (h1 : scanPA s = none)
    (hab : s = a ++ m ++ b) : scanPA m = none := by
  cases hma : scanPA m with
  | none => rfl
  | some m2 =>
    have hps : HasPA s := hab ▸ hasPA_extend a b (hasPA_of_scanPA hma)
    have hs := scanPA_isSome_of_hasPA hps
    rw [h1] at hs
    exact absurd hs (by simp)

theorem tryPart_eq_some {l m : List Char} (h : tryPart l = some m) :
    (LDshape m ∧ ∃ a b, l = a ++ m ++ b) ∧ ∃ c ∈ l, isWs c = true := by
  match l with
  | [] => exact absurd h (by simp [tryPart])
  | [cp] => exact absurd h (by simp [tryPart])
  | [cp, ca] => exact absurd h (by simp [tryPart])
  | [cp, ca, cr] => exact absurd h (by simp [tryPart])
  | cp :: ca :: cr :: ct :: rest =>
    by_cases hcond : (lowEq cp 'p' && lowEq ca 'a' && lowEq cr 'r' && lowEq ct 't') = true
    · simp only [tryPart, if_pos hcond] at h
      by_cases hws : takeW isWs rest = []
      · rw [if_pos hws] at h; exact absurd h (by simp)
      · rw [if_neg hws] at h
        obtain ⟨hsh, b, hb⟩ := tryLD_eq_some h
        obtain ⟨w, t', hrest, hw⟩ := takeW_ne_nil_head hws
        have hrest2 : takeW isWs rest ++ (m ++ b) = rest := by
          rw [← hb]; exact takeW_append_dropW _ _
        refine ⟨⟨hsh, cp :: ca :: cr :: ct :: takeW isWs rest, b, ?_⟩, w, ?_, hw⟩
        · simp only [List.cons_append, List.append_assoc, hrest2]
        · rw [hrest]
          simp
    · simp only [tryPart, if_neg hcond] at h
      exact absurd h (by simp)

theorem scanPart_eq_some {l m : List Char} (h : scanPart l = some m) :
    (LDshape m ∧ ∃ a b, l = a ++ m ++ b) ∧ ∃ c ∈ l, isWs c = true := by
  induction l with
  | nil => exact absurd h (by simp [scanPart])
  | cons c t ih =>
    cases htry : tryPart (c :: t) with
    | some m' =>
      rw [scanPart, htry] at h
      have hm : m' = m := Option.some_injective _ h
      subst hm
      exact tryPart_eq_some htry
    | none =>
      rw [scanPart, htry] at h
      obtain ⟨⟨hsh, a, b, hb⟩, w, hwmem, hw⟩ := ih h
      exact ⟨⟨hsh, c :: a, b, by simp [hb]⟩, w, List.mem_cons_of_mem c hwmem, hw⟩

theorem scanPart_none_of_no_ws {l : List Char} (hn : ∀ c ∈ l, isWs c = false) :
    scanPart l = none := by
  cases hsp : scanPart l with
  | none => rfl
  | some m =>
    obtain ⟨c, hc, hw⟩ := (scanPart_eq_some hsp).2
    rw [hn c hc] at hw
    exact absurd hw (by simp)

theorem ldshape_no_ws {m : List Char} (h : LDshape m) : ∀ c ∈ m, isWs c = false := by
  obtain ⟨ls, ds, rfl, hne, hall, hdne, hdall⟩ := h
  intro c hc
  rw [List.mem_append] at hc
  rcases hc with hc | hc
  · exact let_not_ws (hall c hc)
  · rw [List.mem_cons] at hc
    rcases hc with rfl | hc
    · decide
    · exact dig_not_ws (hdall c hc)

theorem extract_of_ldshape {m : List Char} (hsh : LDshape m)
    (hpa : scanPA m = none) : extract_part_number (String.mk m) = some (String.mk m) := by
  have h2 : scanPart m = none := scanPart_none_of_no_ws (ldshape_no_ws hsh)
  have h3 : scanLD m = some m := scanLD_of_shape hsh
  simp [extract_part_number, hpa, h2, h3]

theorem extract_of_pashape {m : List Char} (hsh : PAshape m) :
    extract_part_number (String.mk m) = some (String.mk m) := by
  have h1 : scanPA m = some m := scanPA_of_shape hsh
  simp [extract_part_number, h1]

/-- C5 counterexample: on the input ab-123 the extractor returns the
matched substring verbatim, in lowercase, not the claimed
uppercase-normalized form AB-123. -/
theorem C5_counterexample :
    extract_part_number "ab-123" = some "ab-123" ∧ ("ab-123" : String) ≠ "AB-123" := by
  exact ⟨by decide, by decide⟩

/-- C5 (amended): for every text containing a letters-dash-digits
substring the extractor returns some match (never no-match), the match
being the substring exactly as it appears in the input (case
preserved, not uppercased, witnessed by the counterexample); and
extraction is idempotent: re-extracting a returned value yields that
same value. -/
theorem C5_extract_amended (s : String) :
    (HasLDsub s.toList → (extract_part_number s).isSome = true) ∧
    (∀ r : String, extract_part_number s = some r → extract_part_number r = some r) := by
  constructor
  · intro h
    have hld := scanLD_isSome_of_has h
    unfold extract_part_number
    cases h1 : scanPA s.toList with
    | some m => rfl
    | none =>
      cases h2 : scanPart s.toList with
      | some m => rfl
      | none =>
        cases h3 : scanLD s.toList with
        | some m => rfl
        | none => rw [h3] at hld; exact absurd hld (by simp)
  · intro r hr
    unfold extract_part_number at hr
    cases h1 : scanPA s.toList with
    | some m =>
      rw [h1] at hr
      have hr2 : some (String.mk m) = some r := hr
      obtain rfl : String.mk m = r := Option.some_injective _ hr2
      exact extract_of_pashape (scanPA_eq_some h1).1
    | none =>
      rw [h1] at hr
      cases h2 : scanPart s.toList with
      | some m =>
        rw [h2] at hr
        have hr2 : some (String.mk m) = some r := hr
        obtain rfl : String.mk m = r := Option.some_injective _ hr2
        obtain ⟨⟨hsh, a, b, hab⟩, _⟩ := scanPart_eq_some h2
        exact extract_of_ldshape hsh (scanPA_none_sub h1 hab)
      | none =>
        rw [h2] at hr
        cases h3 : scanLD s.toList with
        | some m =>
          rw [h3] at hr
          have hr2 : some (String.mk m) = some r := hr
          obtain rfl : String.mk m = r := Option.some_injective _ hr2
          obtain ⟨hsh, a, b, hab⟩ := scanLD_eq_some h3
          exact extract_of_ldshape hsh (scanPA_none_sub h1 hab)
        | none =>
          rw [h3] at hr
          exact absurd hr (by simp)

/-- Witness instantiating the amended extraction theorem at a concrete
input with a letters-dash-digits substring. -/
theorem C5_extract_amended_witness :
    (extract_part_number "ab-123").isSome = true ∧
    extract_part_number "ab-123" = some "ab-123" :=
  ⟨(C5_extract_amended "ab-123").1
      ⟨[], ['a', 'b'], ['1', '2', '3'], [], by decide, by decide,
        by unfold AllLet; decide, by decide, by unfold AllDig; decide⟩,
   (C5_extract_amended "ab-123").2 "ab-123" (by decide)⟩

/-! ## Price-series extraction (claim C3) -/

/-- C3 counterexample: a price field with a two-digit year and a
positive finite value contributes no point (the suffix-length guard
requires at least seven characters, so at least a four-character year),
while the same field with a four-digit year does contribute. -/
theorem C3_counterexample :
    pricePoints [("pricejan23", PVal.vnum 5)] = [] ∧
    create_price_trend_chart [("pricejan23", PVal.vnum 5)] =
      ChartSpec.err "No valid price data found" ∧
    pricePoints [("pricejan2023", PVal.vnum 5)] = [(2023, 1, 5)] :=
  ⟨by decide, by decide, by decide⟩

/-- C3 (amended): every price field whose suffix is at least seven
characters long, made of a known English month and a year that parses
into the datetime range, with a positive finite value, contributes its
point; the series is in field-declaration order (fields before and
after contribute their own points around it); two-digit-year fields are
discarded by the length guard, as the counterexample records. -/
theorem C3_price_series_amended
    (pre post : Row) (name : String) (v : ℚ) (mn y : Nat)
    (hcol : isPriceCol name = true)
    (hlen : 7 ≤ (removePrice name.toList).length)
    (hmon : monthNumEn ((removePrice name.toList).take 3) = some mn)
    (hyr : parseNat ((removePrice name.toList).drop 3) = some y)
    (hylo : 1 ≤ y) (hyhi : y ≤ 9999) (hv : 0 < v) :
    pricePoints (pre ++ (name, PVal.vnum v) :: post) =
      pricePoints pre ++ (y, mn, v) :: pricePoints post := by
  have hvp : validPos (PVal.vnum v) = true := by
    simp [validPos, pdNotNa, pyGtZero, pyIsInf, hv]
  have hfield : parsePriceField (name, PVal.vnum v) = some (y, mn, v) := by
    simp only [parsePriceField, hmon, hyr, hvp, toQ]
    rw [if_pos hlen, if_pos ⟨hylo, hyhi⟩]
    simp
  simp [pricePoints, List.filter_append, List.filter_cons, hcol,
    List.filterMap_append, List.filterMap_cons, hfield]

/-- Witness instantiating the amended price-series theorem at a
concrete four-digit-year field. -/
theorem C3_price_series_amended_witness :
    pricePoints ([] ++ ("pricejan2023", PVal.vnum 5) :: []) =
      pricePoints [] ++ (2023, 1, (5 : ℚ)) :: pricePoints [] :=
  C3_price_series_amended [] [] "pricejan2023" 5 1 2023 (by decide) (by decide)
    (by decide) (by decide) (by decide) (by decide) (by decide)

/-! ## Market-trend chart building (claim C4) -/

/-- C4 counterexample: a null-average point contributes a pair with the
value 0.0 rather than being absent, and a negative finite point passes
through, so the built series is not non-negative. -/
theorem C4_counterexample :
    create_market_trend_chart (2025, 9)
        [("jul-25", PVal.vnan), ("ago-25", PVal.vnum (-5))] "Raw Material Index Trend" =
      ChartSpec.trendLine [(2025, 7), (2025, 8)] [0, -5] "Raw Material Index Trend" := by
  decide

/-- C4 (amended): on a non-empty input series the builder emits exactly
one (date, value) pair per input point; a null, NaN, infinite or
unreadable value is replaced by 0.0 (not dropped), and every other
value passes through unchanged, so each built value is either 0 or a
finite value occurring in the input (negative values included). -/
theorem C4_market_trend_amended (now : Nat × Nat) (trend : List (String × PVal))
    (title : String) (hne : trend ≠ []) :
    create_market_trend_chart now trend title =
      ChartSpec.trendLine (trend.map (fun r => parseTrendDate now r.1))
        (trend.map (fun r => cleanTrendValue r.2)) title ∧
    (trend.map (fun r => cleanTrendValue r.2)).length = trend.length ∧
    ∀ q ∈ trend.map (fun r => cleanTrendValue r.2),
      q = 0 ∨ ∃ r ∈ trend, r.2 = PVal.vnum q := by
  refine ⟨?_, by simp, ?_⟩
  · unfold create_market_trend_chart
    rw [if_neg hne, if_neg (by simp [hne])]
  · intro q hq
    rw [List.mem_map] at hq
    obtain ⟨r, hr, hclean⟩ := hq
    cases hv : r.2 with
    | vnum x =>
      rw [hv] at hclean
      have hx : x = q := by simpa [cleanTrendValue] using hclean
      exact Or.inr ⟨r, hr, by rw [hv, hx]⟩
    | vnull =>
      rw [hv] at hclean
      exact Or.inl (by simpa [cleanTrendValue] using hclean.symm)
    | vnan =>
      rw [hv] at hclean
      exact Or.inl (by simpa [cleanTrendValue] using hclean.symm)
    | vinf pos =>
      rw [hv] at hclean
      exact Or.inl (by simpa [cleanTrendValue] using hclean.symm)
    | vstr s =>
      rw [hv] at hclean
      exact Or.inl (by simpa [cleanTrendValue] using hclean.symm)

/-- Witness instantiating the amended market-trend theorem at a
concrete non-empty series. -/
theorem C4_market_trend_amended_witness :
    create_market_trend_chart (2025, 9) [("jul-25", PVal.vnum 7)] "Energy Index Gas Trend" =
      ChartSpec.trendLine [(2025, 7)] [7] "Energy Index Gas Trend" := by
  have h := (C4_market_trend_amended (2025, 9) [("jul-25", PVal.vnum 7)]
    "Energy Index Gas Trend" (by decide)).1
  rw [h]
  decide

/-! ## Cost-breakdown pie percentages (claim C7) -/

theorem sum_map_div_mul (l : List ℚ) (t : ℚ) :
    (l.map (fun v => v / t * 100)).sum = l.sum / t * 100 := by
  induction l with
  | nil => simp
  | cons x xs ih => simp [ih, add_div, add_mul]

/-- C7: whenever the total of the included slice values is positive the
per-slice percentages sum to exactly 100 (the floating tolerance of the
claim is exact equality over rationals); when the total is 0 the
percentage list is empty, so the division is never performed.  The
no-string-cell hypothesis confines the statement to inputs on which the
embedding and the Python guard agree on every path. -/
theorem C7_pie_percentages (row : Row) (p : String) (sug : Bool)
    (_hns : rowNoStr row = true) :
    (0 < (pieValues (create_cbs_pie_chart row p sug)).sum →
      (piePercentages (create_cbs_pie_chart row p sug)).sum = 100) ∧
    ((pieValues (create_cbs_pie_chart row p sug)).sum = 0 →
      piePercentages (create_cbs_pie_chart row p sug) = []) := by
  constructor
  · intro hpos
    have hpos2 : 0 < ((cbsIncluded row).map (fun f => f.2)).sum := hpos
    have hpc : piePercentages (create_cbs_pie_chart row p sug) =
        ((cbsIncluded row).map (fun f => f.2)).map
          (fun v => v / ((cbsIncluded row).map (fun f => f.2)).sum * 100) := by
      show (if 0 < ((cbsIncluded row).map (fun f => f.2)).sum then
          ((cbsIncluded row).map (fun f => f.2)).map
            (fun v => v / ((cbsIncluded row).map (fun f => f.2)).sum * 100)
        else []) = _
      rw [if_pos hpos2]
    rw [hpc, sum_map_div_mul, div_self (ne_of_gt hpos2), one_mul]
  · intro hz
    have hz2 : ((cbsIncluded row).map (fun f => f.2)).sum = 0 := hz
    show (if 0 < ((cbsIncluded row).map (fun f => f.2)).sum then
        ((cbsIncluded row).map (fun f => f.2)).map
          (fun v => v / ((cbsIncluded row).map (fun f => f.2)).sum * 100)
      else []) = []
    rw [hz2]
    simp

/-- Witness instantiating the pie-percentage theorem on a two-component
breakdown row: the percentages sum to 100. -/
theorem C7_pie_percentages_witness :
    rowNoStr [("rawmaterial", PVal.vnum 60), ("labor", PVal.vnum 40)] = true ∧
    (piePercentages (create_cbs_pie_chart
        [("rawmaterial", PVal.vnum 60), ("labor", PVal.vnum 40)] "PA-10197" false)).sum = 100 := by
  refine ⟨by decide, ?_⟩
  apply (C7_pie_percentages [("rawmaterial", PVal.vnum 60), ("labor", PVal.vnum 40)]
    "PA-10197" false (by decide)).1
  have hlist : pieValues (create_cbs_pie_chart
      [("rawmaterial", PVal.vnum 60), ("labor", PVal.vnum 40)] "PA-10197" false) =
      [60, 40] := rfl
  rw [hlist]
  norm_num

/-! ## Breakdown synthesis (claim C8) -/

theorem validPrices_pos (row : Row) : ∀ q ∈ validPrices row, 0 < q := by
  intro q hq
  unfold validPrices at hq
  rw [List.mem_map] at hq
  obtain ⟨f, hf, htq⟩ := hq
  rw [List.mem_filter] at hf
  have hvp := hf.2
  cases hv : f.2 with
  | vnum x =>
    rw [hv] at hvp htq
    have hx : 0 < x := by
      simpa [validPos, pdNotNa, pyGtZero, pyIsInf] using hvp
    have : x = q := htq
    exact this ▸ hx
  | vnull => rw [hv] at hvp; exact absurd hvp (by decide)
  | vnan => rw [hv] at hvp; exact absurd hvp (by decide)
  | vinf pos =>
    rw [hv] at hvp
    simp [validPos, pdNotNa, pyGtZero, pyIsInf] at hvp
  | vstr s => rw [hv] at hvp; exact absurd hvp (by simp [validPos, pdNotNa, pyGtZero])

/-- C8: every synthesized component is non-negative (and finite, which
rationals are by construction); the seven components always sum to
exactly the average price used, which shows the fixed weights sum to
one; when no valid price exists that average is the constant 100.  The
no-string-cell hypothesis confines the statement to inputs on which the
source's unguarded comparison cannot raise. -/
theorem C8_suggest_cbs (row : Row) (_hns : rowNoStr row = true) :
    (∀ p ∈ suggest_cbs_structure row, 0 ≤ p.2) ∧
    ((suggest_cbs_structure row).map (fun p => p.2)).sum = avg_price row ∧
    (validPrices row = [] → avg_price row = 100) := by
  have havg : 0 ≤ avg_price row := by
    unfold avg_price
    split_ifs with h
    · norm_num
    · apply div_nonneg
      · exact List.sum_nonneg fun q hq => le_of_lt (validPrices_pos row q hq)
      · exact Nat.cast_nonneg _
  refine ⟨?_, ?_, fun h => by unfold avg_price; rw [if_pos h]⟩
  · intro p hp
    unfold suggest_cbs_structure cbsWeights at hp
    simp only [List.map_cons, List.map_nil, List.mem_cons, List.not_mem_nil, or_false] at hp
    rcases hp with rfl | rfl | rfl | rfl | rfl | rfl | rfl <;>
      exact mul_nonneg havg (by norm_num)
  · unfold suggest_cbs_structure cbsWeights
    simp only [List.map_cons, List.map_nil, List.sum_cons, List.sum_nil]
    ring

/-- Witness instantiating the synthesis theorem on a one-price row: the
components sum to the average price, here the price itself. -/
theorem C8_suggest_cbs_witness :
    ((suggest_cbs_structure [("priceapr2023", PVal.vnum 120)]).map (fun p => p.2)).sum =
      avg_price [("priceapr2023", PVal.vnum 120)] ∧
    avg_price [("priceapr2023", PVal.vnum 120)] = 120 := by
  refine ⟨(C8_suggest_cbs [("priceapr2023", PVal.vnum 120)] (by decide)).2.1, ?_⟩
  have hvp : validPrices [("priceapr2023", PVal.vnum 120)] = [120] := rfl
  unfold avg_price
  rw [hvp]
  norm_num

/-! ## Month formatter lemmas and claim C6 -/

theorem daysInMonth_pos (y m : Nat) : 1 ≤ daysInMonth y m := by
  unfold daysInMonth
  split_ifs <;> norm_num

theorem dim12 (y : Nat) : daysInMonth y 12 = 31 := by simp [daysInMonth]

theorem valid_prevDay {d : PyDate} (h : ValidDate d) : ValidDate (prevDay d) := by
  obtain ⟨y, m, day⟩ := d
  obtain ⟨h1, h2, h3, h4⟩ := h
  simp only at h1 h2 h3 h4
  show ValidDate (if 2 ≤ day then ⟨y, m, day - 1⟩
    else if 2 ≤ m then ⟨y, m - 1, daysInMonth y (m - 1)⟩ else ⟨y - 1, 12, 31⟩)
  split_ifs with hd hm
  · show 1 ≤ m ∧ m ≤ 12 ∧ 1 ≤ day - 1 ∧ day - 1 ≤ daysInMonth y m
    exact ⟨h1, h2, by omega, by omega⟩
  · show 1 ≤ m - 1 ∧ m - 1 ≤ 12 ∧ 1 ≤ daysInMonth y (m - 1) ∧
      daysInMonth y (m - 1) ≤ daysInMonth y (m - 1)
    exact ⟨by omega, by omega, daysInMonth_pos _ _, le_refl _⟩
  · show 1 ≤ 12 ∧ 12 ≤ 12 ∧ 1 ≤ 31 ∧ 31 ≤ daysInMonth (y - 1) 12
    exact ⟨by norm_num, by norm_num, by norm_num, by rw [dim12]⟩

theorem monthsBefore_two (y k : Nat) :
    monthsBefore y (k + 2) = monthsBefore y (k + 1) + daysInMonth y (k + 1) := rfl

theorem dayIndex_prevDay {d : PyDate} (hv : ValidDate d) (hpos : 1 ≤ dayIndex d) :
    dayIndex (prevDay d) + 1 = dayIndex d := by
  obtain ⟨y, m, day⟩ := d
  obtain ⟨h1, h2, h3, h4⟩ := hv
  simp only at h1 h2 h3 h4
  have hpos2 : 1 ≤ daysBeforeYear y + monthsBefore y m + (day - 1) := hpos
  clear hpos
  show dayIndex (if 2 ≤ day then (⟨y, m, day - 1⟩ : PyDate)
      else if 2 ≤ m then ⟨y, m - 1, daysInMonth y (m - 1)⟩ else ⟨y - 1, 12, 31⟩) + 1 =
    daysBeforeYear y + monthsBefore y m + (day - 1)
  split_ifs with hd hm
  · show daysBeforeYear y + monthsBefore y m + (day - 1 - 1) + 1 =
      daysBeforeYear y + monthsBefore y m + (day - 1)
    omega
  · show daysBeforeYear y + monthsBefore y (m - 1) + (daysInMonth y (m - 1) - 1) + 1 =
      daysBeforeYear y + monthsBefore y m + (day - 1)
    obtain ⟨k, rfl⟩ : ∃ k, m = k + 2 := ⟨m - 2, by omega⟩
    have hmb := monthsBefore_two y k
    have hdp := daysInMonth_pos y (k + 1)
    have e1 : k + 2 - 1 = k + 1 := by omega
    rw [e1]
    omega
  · show daysBeforeYear (y - 1) + monthsBefore (y - 1) 12 + (31 - 1) + 1 =
      daysBeforeYear y + monthsBefore y m + (day - 1)
    have hm1 : m = 1 := by omega
    have hd1 : day = 1 := by omega
    subst hm1; subst hd1
    have hmb1 : monthsBefore y 1 = 0 := rfl
    have hBpos : 1 ≤ daysBeforeYear y := by omega
    obtain ⟨n, rfl⟩ : ∃ n, y = n + 1 := by
      cases y with
      | zero => simp [daysBeforeYear] at hBpos
      | succ n => exact ⟨n, rfl⟩
    have e2 : daysBeforeYear (n + 1) = daysBeforeYear n + daysInYear n := rfl
    have e3 : daysInYear n = monthsBefore n 12 + daysInMonth n 12 := rfl
    have e4 : daysInMonth n 12 = 31 := dim12 n
    simp only [Nat.add_sub_cancel]
    omega

theorem keyLe_refl (a : Nat × Nat) : keyLe a a := Or.inr ⟨rfl, le_refl _⟩

theorem keyLe_trans {a b c : Nat × Nat} (h1 : keyLe a b) (h2 : keyLe b c) : keyLe a c := by
  unfold keyLe at *
  omega

theorem daysBeforeYear_pos {y : Nat} (h : 1 ≤ daysBeforeYear y) : 1 ≤ y := by
  cases y with
  | zero => simp [daysBeforeYear] at h
  | succ n => omega

theorem keyPair_prevDay {d : PyDate} (hv : ValidDate d) (hpos : 1 ≤ dayIndex d) :
    keyLe (keyPair (prevDay d)) (keyPair d) := by
  obtain ⟨y, m, day⟩ := d
  obtain ⟨h1, h2, h3, h4⟩ := hv
  simp only at h1 h2 h3 h4
  have hpos2 : 1 ≤ daysBeforeYear y + monthsBefore y m + (day - 1) := hpos
  clear hpos
  show keyLe (keyPair (if 2 ≤ day then (⟨y, m, day - 1⟩ : PyDate)
      else if 2 ≤ m then ⟨y, m - 1, daysInMonth y (m - 1)⟩ else ⟨y - 1, 12, 31⟩))
    (keyPair ⟨y, m, day⟩)
  split_ifs with hd hm
  · exact keyLe_refl _
  · show y < y ∨ (y = y ∧ m - 1 ≤ m)
    exact Or.inr ⟨rfl, by omega⟩
  · show y - 1 < y ∨ (y - 1 = y ∧ 12 ≤ m)
    have hm1 : m = 1 := by omega
    have hd1 : day = 1 := by omega
    subst hm1; subst hd1
    have hmb1 : monthsBefore y 1 = 0 := rfl
    have hy1 : 1 ≤ y := daysBeforeYear_pos (by omega)
    exact Or.inl (by omega)

theorem subDays_facts {d : PyDate} (hv : ValidDate d) :
    ∀ k, k ≤ dayIndex d → ValidDate (subDays d k) ∧ dayIndex (subDays d k) + k = dayIndex d := by
  intro k
  induction k with
  | zero => intro _; exact ⟨hv, rfl⟩
  | succ n ih =>
    intro hk
    obtain ⟨hvn, hin⟩ := ih (by omega)
    have hpos : 1 ≤ dayIndex (subDays d n) := by omega
    refine ⟨valid_prevDay hvn, ?_⟩
    have hstep := dayIndex_prevDay hvn hpos
    show dayIndex (prevDay (subDays d n)) + (n + 1) = dayIndex d
    omega

theorem keyLe_subDays {d : PyDate} (hv : ValidDate d) :
    ∀ k, k ≤ dayIndex d → keyLe (keyPair (subDays d k)) (keyPair d) := by
  intro k
  induction k with
  | zero => intro _; exact keyLe_refl _
  | succ n ih =>
    intro hk
    obtain ⟨hvn, hin⟩ := subDays_facts hv n (by omega)
    have hpos : 1 ≤ dayIndex (subDays d n) := by omega
    exact keyLe_trans (keyPair_prevDay hvn hpos) (ih (by omega))

theorem subDays_add (d : PyDate) (a b : Nat) :
    subDays d (a + b) = subDays (subDays d a) b := by
  induction b with
  | zero => rfl
  | succ n ih =>
    show prevDay (subDays d (a + n)) = prevDay (subDays (subDays d a) n)
    rw [ih]

theorem daysBeforeYear_mono {a b : Nat} (h : a ≤ b) :
    daysBeforeYear a ≤ daysBeforeYear b := by
  induction b, h using Nat.le_induction with
  | base => exact le_refl _
  | succ n hn ih =>
    calc daysBeforeYear a ≤ daysBeforeYear n := ih
      _ ≤ daysBeforeYear n + daysInYear n := Nat.le_add_right _ _

theorem daysBeforeYear_two : daysBeforeYear 2 = 731 := by decide

theorem dayIndex_ge {d : PyDate} (hy : 2 ≤ d.year) : 731 ≤ dayIndex d := by
  have h1 : daysBeforeYear 2 ≤ daysBeforeYear d.year := daysBeforeYear_mono hy
  rw [daysBeforeYear_two] at h1
  unfold dayIndex
  omega

theorem key_step (now : PyDate) (hv : ValidDate now) (hidx : 731 ≤ dayIndex now) :
    ∀ m, m < 11 →
      keyLe (keyPair (subDays now (30 * (m + 1)))) (keyPair (subDays now (30 * m))) := by
  intro m hm
  have h1 : 30 * m ≤ dayIndex now := by omega
  obtain ⟨hvm, him⟩ := subDays_facts hv (30 * m) h1
  have h2 : 30 ≤ dayIndex (subDays now (30 * m)) := by omega
  have h3 := keyLe_subDays hvm 30 h2
  rw [← subDays_add] at h3
  have e : 30 * m + 30 = 30 * (m + 1) := by ring
  rw [e] at h3
  exact h3

/-- C6: at any valid evaluation date (year at least 2, so that twelve
30-day steps stay within the calendar), get_last_12_months returns
exactly 12 period keys; each key is the formatting of the (year, month)
pair of its generating date, and those encoded pairs are in
non-decreasing chronological order even though periods step back 30
days at a time; and the last key equals get_current_month_format at the
same date. -/
theorem C6_trailing_periods (now : PyDate) (hv : ValidDate now) (hy : 2 ≤ now.year) :
    (get_last_12_months now).length = 12 ∧
    get_last_12_months now = (last12Pairs now).map
      (fun p => monthNamesEs.getD (p.2 - 1) "" ++ "-" ++ lastTwo p.1) ∧
    List.Chain' keyLe (last12Pairs now) ∧
    (get_last_12_months now).getLast? = some (get_current_month_format now) := by
  have hidx : 731 ≤ dayIndex now := dayIndex_ge hy
  have hstep := key_step now hv hidx
  refine ⟨by simp [get_last_12_months], ?_, ?_, ?_⟩
  · simp only [get_last_12_months, last12Pairs, List.map_reverse, List.map_map]
    rfl
  · show List.Chain' keyLe
      [keyPair (subDays now (30 * 11)), keyPair (subDays now (30 * 10)),
       keyPair (subDays now (30 * 9)), keyPair (subDays now (30 * 8)),
       keyPair (subDays now (30 * 7)), keyPair (subDays now (30 * 6)),
       keyPair (subDays now (30 * 5)), keyPair (subDays now (30 * 4)),
       keyPair (subDays now (30 * 3)), keyPair (subDays now (30 * 2)),
       keyPair (subDays now (30 * 1)), keyPair (subDays now (30 * 0))]
    simp only [List.chain'_cons, List.chain'_singleton, and_true]
    exact ⟨hstep 10 (by norm_num), hstep 9 (by norm_num), hstep 8 (by norm_num),
      hstep 7 (by norm_num), hstep 6 (by norm_num), hstep 5 (by norm_num),
      hstep 4 (by norm_num), hstep 3 (by norm_num), hstep 2 (by norm_num),
      hstep 1 (by norm_num), hstep 0 (by norm_num)⟩
  · rfl

/-- Witness instantiating the period theorem at a concrete date. -/
theorem C6_trailing_periods_witness :
    ValidDate ⟨2025, 7, 15⟩ ∧
    (get_last_12_months ⟨2025, 7, 15⟩).length = 12 ∧
    (get_last_12_months ⟨2025, 7, 15⟩).getLast? =
      some (get_current_month_format ⟨2025, 7, 15⟩) := by
  have hv : ValidDate ⟨2025, 7, 15⟩ := by
    show 1 ≤ 7 ∧ 7 ≤ 12 ∧ 1 ≤ 15 ∧ 15 ≤ daysInMonth 2025 7
    decide
  have h := C6_trailing_periods ⟨2025, 7, 15⟩ hv (by decide)
  exact ⟨hv, h.1, h.2.2.2⟩

/-! ## Analysis generator and orchestrator claims (C1, C9, C10) -/

theorem append_contains_mid (A p B : String) :
    ∃ a b, (A ++ p ++ B).data = a ++ p.data ++ b := by
  refine ⟨A.data, B.data, ?_⟩
  simp [String.data_append]

theorem fallback_ne_empty (pd ce : Bool) (mi : List (String × ℚ)) (pn : String) :
    fallbackAnalysis pd ce mi pn ≠ "" := by
  intro h
  have hl := congrArg String.length h
  unfold fallbackAnalysis at hl
  simp only [String.length_append] at hl
  have h1 : 0 < ("\n        # COST ANALYSIS REPORT - " : String).length := by decide
  have h0 : ("" : String).length = 0 := rfl
  omega

theorem fallback_contains (pd ce : Bool) (mi : List (String × ℚ)) (pn : String) :
    ∃ a b, (fallbackAnalysis pd ce mi pn).data = a ++ pn.data ++ b := by
  unfold fallbackAnalysis
  exact append_contains_mid _ pn _

theorem safe_float_absent {v : Option PVal} (h : absentUpstream v) : safe_float v = 0 := by
  cases v with
  | none => rfl
  | some pv =>
    cases pv with
    | vnum q => exact absurd rfl (h q)
    | vnull => rfl
    | vnan => rfl
    | vinf b => rfl
    | vstr s => rfl

/-- C1 at the failing input: the mapping passed as current_indices to
the analysis generator is the all-zero placeholder initialized at the
top of the handler, while the current-period values fetched in stage 4
and converted by safe_float are 42, 90 and 35 and do reach the
response; the cleaned mapping is recomputed only after the generator
call, so the generator never sees the fetched values. -/
theorem C1_generator_indices_bug :
    resultGeneratorIndices (chat_endpoint envC1) =
      some [("raw_material", 0), ("electricity", 0), ("gas", 0)] ∧
    resultMarketIndices (chat_endpoint envC1) = some ⟨42, 90, 35⟩ ∧
    safe_float (rawFetched envC1) = 42 ∧
    ((42 : ℚ) ≠ 0 ∧ (90 : ℚ) ≠ 0 ∧ (35 : ℚ) ≠ 0) := by
  refine ⟨rfl, rfl, rfl, by norm_num, by norm_num, by norm_num⟩

/-- C9: when the completion call raises, the endpoint still succeeds:
the response carries success = true and its analysis field is exactly
the deterministic templated fallback, which is total (it cannot throw),
non-empty, and contains the literal part number.  The hypotheses state
that a part number was extracted, the part was found, the completion
failed, and no string cell reaches an unguarded Python comparison. -/
theorem C9_fallback (env : ChatEnv) (p : String) (row : Row) (e : String)
    (hex : extract_part_number env.message = some p)
    (hrow : env.partRow = some row)
    (hcomp : env.completion = Except.error e)
    (_hok : chatEnvOk env = true) :
    resultSuccess (chat_endpoint env) = some true ∧
    resultAnalysis (chat_endpoint env) =
      some (fallbackAnalysis false false
        [("raw_material", 0), ("electricity", 0), ("gas", 0)] p) ∧
    fallbackAnalysis false false
      [("raw_material", 0), ("electricity", 0), ("gas", 0)] p ≠ "" ∧
    ∃ a b, (fallbackAnalysis false false
        [("raw_material", 0), ("electricity", 0), ("gas", 0)] p).data =
      a ++ p.data ++ b := by
  unfold chat_endpoint
  rw [hex, hrow, hcomp]
  exact ⟨rfl, rfl, fallback_ne_empty _ _ _ _, fallback_contains _ _ _ _⟩

/-- Witness instantiating the fallback theorem at the concrete failing
environment. -/
theorem C9_fallback_witness :
    resultSuccess (chat_endpoint envC1) = some true ∧
    resultAnalysis (chat_endpoint envC1) =
      some (fallbackAnalysis false false
        [("raw_material", 0), ("electricity", 0), ("gas", 0)] "PA-10197") := by
  have h := C9_fallback envC1 "PA-10197"
    [("PartNumber", .vstr "PA-10197"), ("material", .vstr "PA6"),
     ("pricejan2023", .vnum 100)]
    "completion unavailable" (by decide) rfl rfl (by decide)
  exact ⟨h.1, h.2.1⟩

/-- C10: the response's market_indices mapping is always present with
all three fields as floats, and whenever an index value is absent
upstream (no row, or a null, NaN or infinite value, or no applicable
material mapping) the corresponding field is exactly 0.0. -/
theorem C10_absent_index_zero (env : ChatEnv) (p : String) (row : Row)
    (hex : extract_part_number env.message = some p)
    (hrow : env.partRow = some row)
    (_hok : chatEnvOk env = true) :
    ∃ mi : MarketIndices,
      resultMarketIndices (chat_endpoint env) = some mi ∧
      (absentUpstream (rawFetched env) → mi.raw_material = 0) ∧
      (absentUpstream (elecFetched env) → mi.electricity = 0) ∧
      (absentUpstream (gasFetched env) → mi.gas = 0) := by
  unfold chat_endpoint
  rw [hex, hrow]
  exact ⟨⟨safe_float (rawFetched env), safe_float (elecFetched env),
      safe_float (gasFetched env)⟩, rfl,
    fun h => safe_float_absent h, fun h => safe_float_absent h,
    fun h => safe_float_absent h⟩

/-- Witness instantiating the absent-index theorem at a concrete
environment in which all three values are absent upstream: the
response map is present with all three entries equal to 0.0. -/
theorem C10_absent_index_zero_witness :
    ∃ mi : MarketIndices,
      resultMarketIndices (chat_endpoint envC10) = some mi ∧
      mi.raw_material = 0 ∧ mi.electricity = 0 ∧ mi.gas = 0 := by
  obtain ⟨mi, hmi, h1, h2, h3⟩ := C10_absent_index_zero envC10 "PA-10197"
    [("PartNumber", .vstr "PA-10197"), ("material", .vstr "PA6"),
     ("pricejan2023", .vnum 100)]
    (by decide) rfl (by decide)
  refine ⟨mi, hmi, h1 ?_, h2 ?_, h3 ?_⟩
  · intro q hq
    rw [show rawFetched envC10 = none from rfl] at hq
    exact Option.noConfusion hq
  · intro q hq
    rw [show elecFetched envC10 = some PVal.vnan from rfl] at hq
    simp at hq
  · intro q hq
    rw [show gasFetched envC10 = none from rfl] at hq
    exact Option.noConfusion hq
